import Mathlib

/-
Verification of the placement engine of the openstack-installer repository.

Two embeddings are developed side by side:

* namespace `Flat` — a direct shallow embedding of the `PlacementController`
  in `src/cloudinstall/placement.py` (the stratum-free controller): the
  assignment store is `defaultdict(instance_id -> [charm class])`, embedded as
  an association list threaded explicitly so that the defaultdict's
  insert-on-read side effect is observable.

* namespace `Strata` — the stratum-typed controller
  (`cloudinstall/placement/controller.py`).  That module is part of the
  repository (its unit tests, `src/test/test_placement_controller.py`, import
  it) but its source is not in `src/`, so its operations are modelled from the
  specification, corroborated by those tests.  The store is
  `instance_id -> (AssignmentType -> [charm class])`.

Python's in-place mutation is translated by state passing: every operation
that mutates a dictionary or list returns the new value; `gen_defaults`
additionally returns the machine-pool list as left behind by the call, which
is exactly what the caller of the Python function observes in its own list
object.
-/

/-- Constraint values: a numeric measurement, a string/enum value, or the
wildcard `*` that matches anything on either side. -/
inductive CVal
  | num : Nat → CVal
  | str : String → CVal
  | star : CVal
deriving DecidableEq

/-- A constraint mapping, e.g. arch/cpu_cores/mem/storage to a value. -/
abbrev Constraints := List (String × CVal)

/-- A machine record: stable instance id plus its measured constraints.
Placeholder machines reconstructed at load time use this same shape. -/
structure Machine where
  instance_id : String
  constraints : Constraints
deriving DecidableEq

/-- A service definition ("charm class") from the catalog.  Fields are the
ones the placement engine reads: `charm_name` (unique key),
`allow_multi_units`, `isolate`, and the matching `constraints`. -/
structure Charm where
  charm_name : String
  allow_multi_units : Bool
  isolate : Bool
  constraints : Constraints
deriving DecidableEq

/-- The three placement strata of the stratum-typed controller. -/
inductive AssignmentType
  | BareMetal
  | LXC
  | KVM
deriving DecidableEq

/-- Declaration-order enumeration of the strata. -/
def AssignmentType.all : List AssignmentType :=
  [AssignmentType.BareMetal, AssignmentType.LXC, AssignmentType.KVM]

namespace Assoc

/-- Lookup of the first value stored under key `k` (Python `d[k]` read on a
plain dict, `none` when the key is missing). -/
def find {κ α : Type} [DecidableEq κ] : List (κ × α) → κ → Option α
  | [], _ => none
  | e :: r, k => if e.1 = k then some e.2 else find r k

/-- Lookup with a default value for a missing key. -/
def getD {κ α : Type} [DecidableEq κ] (l : List (κ × α)) (k : κ) (d : α) : α :=
  (find l k).getD d

/-- Python `d[k] = v`: replace the value under an existing key, otherwise
append a fresh entry. -/
def set {κ α : Type} [DecidableEq κ] : List (κ × α) → κ → α → List (κ × α)
  | [], k, v => [(k, v)]
  | e :: r, k, v => if e.1 = k then (k, v) :: r else e :: set r k v

/-- Python `defaultdict` read `d[k]`: returns the stored value, or the default
`d`, and ALSO the dictionary after the read — a missing key is inserted with
the default as a side effect of reading. -/
def dget {κ α : Type} [DecidableEq κ] (l : List (κ × α)) (k : κ) (d : α) :
    α × List (κ × α) :=
  match find l k with
  | some v => (v, l)
  | none => (d, l ++ [(k, d)])

/-- Python `defaultdict(list)` pattern `d[k].append(b)`: append `b` to the
list stored under `k`, creating the entry when missing. -/
def dappend {κ β : Type} [DecidableEq κ] : List (κ × List β) → κ → β → List (κ × List β)
  | [], k, b => [(k, [b])]
  | e :: r, k, b => if e.1 = k then (e.1, e.2 ++ [b]) :: r else e :: dappend r k b

/-- The key sequence of an association list. -/
def keys {κ α : Type} (l : List (κ × α)) : List κ := l.map Prod.fst

end Assoc

/-- Modelled from the spec: `cloudinstall.machine.satisfies` is not under
`src/` (only its import in placement.py is).  Per spec section 4.1, a single
dimension is satisfied when the requirement is the wildcard `*`, when the
machine value is `*`, when a numeric machine value is at least the numeric
requirement, or when string values are equal; a missing machine value fails
everything but `*`. -/
def dimSat : Option CVal → CVal → Bool
  | _, CVal.star => true
  | some CVal.star, _ => true
  | some (CVal.num v), CVal.num r => decide (r ≤ v)
  | some (CVal.str s), CVal.str t => decide (s = t)
  | _, _ => false

/-- Modelled from the spec: `satisfies(machine, constraints)` returns whether
every constraint dimension is satisfied together with the list of all failing
dimension names; an empty constraint mapping always satisfies. -/
def satisfies (m : Machine) (cs : Constraints) : Bool × List String :=
  let failing := cs.filter (fun kv => ! dimSat (Assoc.find m.constraints kv.1) kv.2)
  (failing.isEmpty, failing.map (fun kv => kv.1))

namespace Flat

/-- The assignment store of placement.py: `defaultdict(list)` mapping an
instance id to the ordered list of charm classes assigned to that machine. -/
abbrev Store := List (String × List Charm)

/-- Remove the first occurrence of a charm from a list (Python
`list.remove`, caller having checked membership). -/
def eraseFirst : List Charm → Charm → List Charm
  | [], _ => []
  | x :: r, cc => if x = cc then r else x :: eraseFirst r cc

/-- Embeds placement.py lines 106-112, `PlacementController.assign`: when the
charm disallows multiple units, every machine's list first drops its
occurrence of that charm (`if charm_class in l: l.remove(charm_class)`), then
the charm is appended to the target machine's list via the defaultdict. -/
def assign (st : Store) (m : Machine) (cc : Charm) : Store :=
  let st1 := if cc.allow_multi_units then st
             else st.map (fun e =>
               (e.1, if e.2.any (fun x => x = cc) then eraseFirst e.2 cc else e.2))
  Assoc.dappend st1 m.instance_id cc

/-- Embeds placement.py lines 114-122, `PlacementController.machines_for_charm`:
scan every store entry whose list contains the charm and look the machine up
in the live pool; the Python code appends the lookup result even when it is
`None`, so the result is a list of optional machines, one per store entry
referencing the charm. -/
def machines_for_charm (pool : List Machine) (st : Store) (cc : Charm) :
    List (Option Machine) :=
  st.filterMap (fun e =>
    if e.2.any (fun x => x = cc) then
      some (pool.find? (fun m => m.instance_id = e.1))
    else none)

/-- The ValueError text Python's `list.remove` raises for a missing element. -/
def value_error_message : String := "ValueError: list.remove(x): x not in list"

/-- Embeds placement.py lines 124-127, `PlacementController.remove_assignment`:
a defaultdict read of the machine's list followed by `list.remove(cc)`, which
raises ValueError when the charm is not in the list.  The error path is
embedded as `Except.error`. -/
def remove_assignment (st : Store) (m : Machine) (cc : Charm) : Except String Store :=
  let p := Assoc.dget st m.instance_id []
  if p.1.any (fun x => x = cc) then
    Except.ok (Assoc.set p.2 m.instance_id (eraseFirst p.1 cc))
  else Except.error value_error_message

/-- Embeds placement.py lines 137-138, `PlacementController.assignments_for_machine`:
`return self.assignments[m.instance_id]` — a defaultdict read, so the result
carries both the list and the store after the read. -/
def assignments_for_machine (st : Store) (m : Machine) : List Charm × Store :=
  Assoc.dget st m.instance_id []

/-- Embeds placement.py lines 144-149, `reset_unplaced`: a catalog charm is
unplaced when `machines_for_charm` yields an empty list.  The Python field is
a set; the embedding keeps catalog order. -/
def unplaced (pool : List Machine) (catalog : List Charm) (st : Store) : List Charm :=
  catalog.filter (fun cc => decide ((machines_for_charm pool st cc).length = 0))

/-- Embeds placement.py lines 207-213, `gen_defaults.satisfying_machine`:
walk the machine list, return the first machine satisfying the constraints
and remove it in place from the list; the returned second component is the
list as the loop leaves it. -/
def satisfying_machine : List Machine → Constraints → Option Machine × List Machine
  | [], _ => (none, [])
  | m :: rest, cs =>
    if (satisfies m cs).1 then (some m, rest)
    else
      let r := satisfying_machine rest cs
      (r.1, m :: r.2)

/-- Embeds placement.py lines 223-226: place each isolated charm, in order,
on a satisfying machine (consuming it from the pool); a charm with no
satisfying machine is skipped. -/
def placeIsolated : List Charm → Store → List Machine → Store × List Machine
  | [], acc, pool => (acc, pool)
  | cc :: rest, acc, pool =>
    match satisfying_machine pool cc.constraints with
    | (some m, pool') => placeIsolated rest (Assoc.dappend acc m.instance_id cc) pool'
    | (none, pool') => placeIsolated rest acc pool'

/-- Embeds placement.py lines 189-233, `PlacementController.gen_defaults`:
partition the catalog into isolated and controller charms, place isolated
charms first, then pick a controller machine with the empty constraints and
append every controller charm to it.  The second component is the machine
pool list as the call leaves it (the Python code removes consumed machines
from the very list the caller supplied). -/
def gen_defaults (charm_classes : List Charm) (maas_machines : List Machine) :
    Store × List Machine :=
  let isolated_charms := charm_classes.filter (fun c => c.isolate)
  let controller_charms := charm_classes.filter (fun c => ! c.isolate)
  let r1 := placeIsolated isolated_charms [] maas_machines
  match satisfying_machine r1.2 [] with
  | (some cm, pool2) =>
    (controller_charms.foldl (fun s cc => Assoc.dappend s cm.instance_id cc) r1.1, pool2)
  | (none, pool2) => (r1.1, pool2)

/-- Embeds placement.py lines 171-172: the list comprehension
`[m for m in machines if len(assignments[m.instance_id]) == 0]` — each
membership test is a defaultdict read and therefore inserts a missing key, so
the scan returns the kept machines together with the grown store. -/
def empty_scan : Store → List Machine → List Machine × Store
  | st, [] => ([], st)
  | st, m :: rest =>
    let p := Assoc.dget st m.instance_id []
    let r := empty_scan p.2 rest
    (if p.1.length = 0 then m :: r.1 else r.1, r.2)

/-- The fixed diagnostic message of placement.py lines 183-185. -/
def autoplace_message : String :=
  "Not enough empty machines could be found for the required services. Please add machines or finish placement manually."

/-- Embeds placement.py lines 163-187, `autoplace_unplaced_services`: collect
the machines with zero assignments (the scan mutates the store through its
defaultdict probes), run `gen_defaults` over the currently unplaced services
and that pool, write each generated entry into the store with plain dict
assignment, and report `(False, message)` when services remain unplaced,
`(True, "")` otherwise. -/
def autoplace_unplaced_services (pool : List Machine) (catalog : List Charm) (st : Store) :
    (Bool × String) × Store :=
  let scan := empty_scan st pool
  let defs := (gen_defaults (unplaced pool catalog st) scan.1).1
  let st' := defs.foldl (fun s e => Assoc.set s e.1 e.2) scan.2
  if 0 < (unplaced pool catalog st').length then ((false, autoplace_message), st')
  else ((true, ""), st')

/-- The default-placement algorithm in the words of the claim: each isolated
service, in catalog order, is paired with the first remaining pool machine
satisfying its constraints, that machine being consumed (`List.eraseP`), or
with `none` when no machine satisfies. -/
def placeIsolatedSpec : List Charm → List Machine → List (Charm × Option Machine) × List Machine
  | [], pool => ([], pool)
  | cc :: rest, pool =>
    match pool.find? (fun m => (satisfies m cc.constraints).1) with
    | some m =>
      let r := placeIsolatedSpec rest (pool.eraseP (fun m2 => (satisfies m2 cc.constraints).1))
      ((cc, some m) :: r.1, r.2)
    | none =>
      let r := placeIsolatedSpec rest pool
      ((cc, none) :: r.1, r.2)

/-- Build the assignment mapping out of the per-service placement decisions. -/
def buildIso : Store → List (Charm × Option Machine) → Store
  | acc, [] => acc
  | acc, (cc, some m) :: ds => buildIso (Assoc.dappend acc m.instance_id cc) ds
  | acc, (_, none) :: ds => buildIso acc ds

/-- The whole default-placement mapping in the words of the claim: place the
isolated services greedily, then pick one remaining machine matching the
empty constraints as the controller machine and assign every non-isolated
service to it; when no machine remains, the non-isolated services are left
out of the mapping. -/
def genDefaultsSpecMap (catalog : List Charm) (pool : List Machine) : Store :=
  let r := placeIsolatedSpec (catalog.filter (fun c => c.isolate)) pool
  let isoMap := buildIso [] r.1
  match r.2.find? (fun m => (satisfies m []).1) with
  | some cm =>
    (catalog.filter (fun c => ! c.isolate)).foldl
      (fun s cc => Assoc.dappend s cm.instance_id cc) isoMap
  | none => isoMap

end Flat

namespace Strata

/-- Modelled from the spec: the inner mapping of the stratum-typed store
(`cloudinstall/placement/controller.py`, absent from `src/`): stratum to
ordered charm list, a `defaultdict(list)`. -/
abbrev Inner := List (AssignmentType × List Charm)

/-- Modelled from the spec: the outer store, instance id to inner mapping, a
`defaultdict(lambda: defaultdict(list))`. -/
abbrev AMap := List (String × Inner)

/-- Modelled from the spec: controller state — the live machine pool, the
store, and the one-way flag recording that the compute service has been
placed at least once (spec section 4.4: a transition never re-evaluated when
the placement is later removed). -/
structure PC where
  pool : List Machine
  assignments : AMap
  compute_placed : Bool

/-- Modelled from the spec: `assignments[mid][atype].append(cc)` — the nested
defaultdict append. -/
def mapAppend : AMap → String → AssignmentType → Charm → AMap
  | [], mid, t, cc => [(mid, [(t, [cc])])]
  | e :: r, mid, t, cc =>
    if e.1 = mid then (e.1, Assoc.dappend e.2 t cc) :: r
    else e :: mapAppend r mid t cc

/-- Modelled from the spec: removal of every existing occurrence of a
non-multi service anywhere in the store (any machine, any stratum) before it
is re-appended elsewhere. -/
def purge (a : AMap) (cc : Charm) : AMap :=
  a.map (fun e => (e.1, e.2.map (fun te => (te.1, te.2.filter (fun x => ! decide (x = cc))))))

/-- Modelled from the spec: `assign(machine, charm_class, atype)` — purge all
occurrences when the charm disallows multiple units, then append under the
given stratum; placing the compute service trips the one-way flag. -/
def assign (pc : PC) (m : Machine) (cc : Charm) (t : AssignmentType) : PC :=
  let a := if cc.allow_multi_units then pc.assignments else purge pc.assignments cc
  { pc with
    assignments := mapAppend a m.instance_id t cc,
    compute_placed := pc.compute_placed || decide (cc.charm_name = "nova-compute") }

/-- The strata under which a charm occurs inside one inner mapping, one entry
per occurrence. -/
def innerOccs (d : Inner) (cc : Charm) : List AssignmentType :=
  d.flatMap (fun te => (te.2.filter (fun x => decide (x = cc))).map (fun _ => te.1))

/-- Every (instance id, stratum) occurrence of a charm in the store. -/
def charmOccs (a : AMap) (cc : Charm) : List (String × AssignmentType) :=
  a.flatMap (fun e => (innerOccs e.2 cc).map (fun t => (e.1, t)))

/-- Modelled from the spec: `machines_for_charm` scans all machine entries
and resolves each occurrence's instance id against the live pool, yielding
the (stratum, machine) pairs hosting the charm. -/
def machines_for_charm (pool : List Machine) (a : AMap) (cc : Charm) :
    List (AssignmentType × Machine) :=
  (charmOccs a cc).filterMap (fun o =>
    (pool.find? (fun m => m.instance_id = o.1)).map (fun m => (o.2, m)))

/-- Inner defaultdict read without the side effect: the charm list under a
stratum, empty when the stratum has no entry. -/
def innerGet (d : Inner) (t : AssignmentType) : List Charm :=
  Assoc.getD d t []

/-- Modelled from the spec: `assignments_for_machine` returns the machine's
inner mapping — a defaultdict, so every stratum is queryable. -/
def assignments_for_machine (a : AMap) (m : Machine) : Inner :=
  Assoc.getD a m.instance_id []

/-- The fully populated view of an inner mapping: all three strata in
declaration order, with the empty list for absent strata — exactly what the
defaultdict hands out on reads. -/
def fullStrata (d : Inner) : List (AssignmentType × List Charm) :=
  AssignmentType.all.map (fun t => (t, innerGet d t))

/-- Modelled from the spec: `del assignments[m.instance_id]` — clearing a
machine removes its store entry; the one-way compute flag is untouched. -/
def clear_assignments (pc : PC) (m : Machine) : PC :=
  { pc with assignments := pc.assignments.filter (fun e => ! decide (e.1 = m.instance_id)) }

/-- The fixed non-core service names of the catalog (the optional swift
object-storage pair). -/
def uncore_names : List String := ["swift-storage", "swift-proxy"]

/-- Modelled from the spec (section 4.4), corroborated by
`test_service_is_core`: every service is core except the swift pair, and the
compute service is core only until gathering its first placement — afterwards
the one-way flag keeps it non-core even when the placement is removed. -/
def service_is_core (pc : PC) (cc : Charm) : Bool :=
  if uncore_names.any (fun n => n = cc.charm_name) then false
  else if cc.charm_name = "nova-compute" then ! pc.compute_placed
  else true

/-- Modelled from the spec: a catalog charm with zero occurrences in the
store is unplaced. -/
def unplaced_services (catalog : List Charm) (a : AMap) : List Charm :=
  catalog.filter (fun cc => decide (charmOccs a cc = []))

/-- Modelled from the spec: deployment is possible when no unplaced service
is core. -/
def can_deploy (pc : PC) (catalog : List Charm) : Bool :=
  (unplaced_services catalog pc.assignments).filter (fun cc => service_is_core pc cc)
    |>.isEmpty

/-- The flattened (stratum, service) pairs of one machine's inner mapping. -/
def innerPairs (d : Inner) : List (AssignmentType × Charm) :=
  d.flatMap (fun te => te.2.map (fun c => (te.1, c)))

/-- Order-independent equality of two pair collections (Python `set(..) ==
set(..)`). -/
def pairSetEq (x y : List (AssignmentType × Charm)) : Bool :=
  x.all (fun p => y.any (fun q => q = p)) && y.all (fun p => x.any (fun q => q = p))

/-- Embeds placement.py lines 98-104 (`are_assignments_equivalent`), lifted
pointwise to the spec's (stratum, service) pairs: iterate over the machine
entries OF THE RECEIVER ONLY; a receiver key missing from the argument is a
mismatch, and per key the order-independent pair sets are compared. -/
def are_assignments_equivalent (a other : AMap) : Bool :=
  a.all (fun e =>
    match other.find? (fun e2 => e2.1 = e.1) with
    | none => false
    | some e2 => pairSetEq (innerPairs e.2) (innerPairs e2.2))

/-- Stratum names as persisted. -/
def atypeName : AssignmentType → String
  | AssignmentType.BareMetal => "BareMetal"
  | AssignmentType.LXC => "LXC"
  | AssignmentType.KVM => "KVM"

/-- Parse a persisted stratum name. -/
def nameAtype (s : String) : Option AssignmentType :=
  if s = "BareMetal" then some AssignmentType.BareMetal
  else if s = "LXC" then some AssignmentType.LXC
  else if s = "KVM" then some AssignmentType.KVM
  else none

/-- One machine's persisted record: instance id, the constraint snapshot
copied at save time, and the assignments as stratum name to service names. -/
structure SavedEntry where
  iid : String
  constr : Constraints
  asg : List (String × List String)
deriving DecidableEq

/-- Modelled from the spec: `save` serializes the store as a mapping from
machine instance id to its constraint snapshot (`snap`, the per-machine
constraints as visible at save time) and its assignments with stratum and
service names flattened to strings. -/
def save (a : AMap) (snap : String → Constraints) : List SavedEntry :=
  a.map (fun e =>
    { iid := e.1
      constr := snap e.1
      asg := e.2.map (fun te => (atypeName te.1, te.2.map (fun c => c.charm_name))) })

/-- Resolve a persisted service name against the catalog. -/
def lookupCharm (catalog : List Charm) (n : String) : Option Charm :=
  catalog.find? (fun c => c.charm_name = n)

/-- Modelled from the spec: `load` rebuilds the store from a persisted
document, resolving each service name through the catalog and silently
skipping unknown names, and rebuilds each machine either from the live pool
or — when the pool cannot supply the id — as a placeholder machine carrying
the persisted constraint snapshot. -/
def load (doc : List SavedEntry) (catalog : List Charm) (pool : List Machine) :
    AMap × List Machine :=
  (doc.map (fun e =>
      (e.iid, e.asg.filterMap (fun p =>
        (nameAtype p.1).map (fun t => (t, p.2.filterMap (lookupCharm catalog)))))),
   doc.map (fun e =>
      match pool.find? (fun m => m.instance_id = e.iid) with
      | some m => m
      | none => { instance_id := e.iid, constraints := e.constr }))

end Strata

/-- A fresh controller with the given machine pool. -/
def Strata.initial (pool : List Machine) : Strata.PC :=
  { pool := pool, assignments := [], compute_placed := false }

/-- Sample charm: keystone (core, not isolated, single unit). -/
def keystoneC : Charm :=
  { charm_name := "keystone", allow_multi_units := false, isolate := false, constraints := [] }

/-- Sample charm: nova-compute (isolated, multiple units allowed). -/
def novaC : Charm :=
  { charm_name := "nova-compute", allow_multi_units := true, isolate := true, constraints := [] }

/-- Sample charm: swift-storage. -/
def swiftStorageC : Charm :=
  { charm_name := "swift-storage", allow_multi_units := true, isolate := true, constraints := [] }

/-- Sample charm: swift-proxy. -/
def swiftProxyC : Charm :=
  { charm_name := "swift-proxy", allow_multi_units := false, isolate := false, constraints := [] }

/-- A service name no catalog registers. -/
def bogusC : Charm :=
  { charm_name := "bogus-service", allow_multi_units := false, isolate := false, constraints := [] }

/-- A small concrete catalog for witnesses. -/
def sampleCatalog : List Charm := [keystoneC, novaC]

/-- Sample machine A. -/
def mA : Machine := { instance_id := "machine-a", constraints := [] }

/-- Sample machine B. -/
def mB : Machine := { instance_id := "machine-b", constraints := [] }

namespace Assoc

theorem find_append {κ α : Type} [DecidableEq κ] (l1 l2 : List (κ × α)) (k : κ) :
    find (l1 ++ l2) k = match find l1 k with
      | some v => some v
      | none => find l2 k := by
  induction l1 with
  | nil => simp [find]
  | cons e r ih =>
    by_cases he : e.1 = k
    · simp [find, he]
    · simp [find, he, ih]

theorem find_some_mem_keys {κ α : Type} [DecidableEq κ] (l : List (κ × α)) (k : κ) (v : α) :
    find l k = some v → k ∈ keys l := by
  induction l with
  | nil => intro h; simp [find] at h
  | cons e r ih =>
    intro h
    by_cases he : e.1 = k
    · simp only [keys, List.map_cons, List.mem_cons]
      exact Or.inl he.symm
    · simp only [find, if_neg he] at h
      simp only [keys, List.map_cons, List.mem_cons]
      exact Or.inr (by simpa [keys] using ih h)

theorem dget_fst {κ α : Type} [DecidableEq κ] (l : List (κ × α)) (k : κ) (d : α) :
    (dget l k d).1 = getD l k d := by
  unfold dget getD
  cases h : find l k <;> simp [h]

theorem getD_dget_snd {κ α : Type} [DecidableEq κ] (l : List (κ × α)) (k k2 : κ) (d : α) :
    getD (dget l k d).2 k2 d = getD l k2 d := by
  unfold dget
  cases h : find l k with
  | some v => rfl
  | none =>
    simp only [getD, find_append l [(k, d)] k2]
    cases h2 : find l k2 with
    | some v => simp
    | none =>
      by_cases hk : k = k2
      · subst hk
        simp [find]
      · simp [find, hk]

theorem keys_dget_snd_of_none {κ α : Type} [DecidableEq κ] (l : List (κ × α)) (k : κ) (d : α)
    (h : find l k = none) : keys (dget l k d).2 = keys l ++ [k] := by
  simp [dget, h, keys]

theorem mem_keys_dget_self {κ α : Type} [DecidableEq κ] (l : List (κ × α)) (k : κ) (d : α) :
    k ∈ keys (dget l k d).2 := by
  unfold dget
  cases h : find l k with
  | some v => exact find_some_mem_keys l k v h
  | none => simp [keys]

theorem mem_keys_dget_mono {κ α : Type} [DecidableEq κ] (l : List (κ × α)) (k k2 : κ) (d : α)
    (h : k2 ∈ keys l) : k2 ∈ keys (dget l k d).2 := by
  unfold dget
  cases hf : find l k with
  | some v => exact h
  | none => simp [keys] at h ⊢; exact Or.inl h

theorem find_set_self {κ α : Type} [DecidableEq κ] (l : List (κ × α)) (k : κ) (v : α) :
    find (set l k v) k = some v := by
  induction l with
  | nil => simp [set, find]
  | cons e r ih =>
    by_cases he : e.1 = k
    · simp [set, he, find]
    · simp [set, he, find, ih]

theorem find_set_ne {κ α : Type} [DecidableEq κ] (l : List (κ × α)) (k k2 : κ) (v : α)
    (h : ¬ k2 = k) : find (set l k v) k2 = find l k2 := by
  have h2 : ¬ k = k2 := fun hh => h hh.symm
  induction l with
  | nil => simp [set, find, h2]
  | cons e r ih =>
    by_cases he : e.1 = k
    · have he2 : ¬ e.1 = k2 := by rw [he]; exact h2
      simp [set, he, find, he2, h2]
    · by_cases he2 : e.1 = k2
      · simp [set, he, find, he2, h]
      · simp [set, he, find, he2, h, ih]

theorem find_dappend_self {κ β : Type} [DecidableEq κ] (l : List (κ × List β)) (k : κ) (b : β) :
    find (dappend l k b) k = some (getD l k [] ++ [b]) := by
  induction l with
  | nil => simp [dappend, find, getD]
  | cons e r ih =>
    by_cases he : e.1 = k
    · simp [dappend, he, find, getD]
    · simp [dappend, he, find, getD, ih]

theorem find_dappend_ne {κ β : Type} [DecidableEq κ] (l : List (κ × List β)) (k k2 : κ) (b : β)
    (h : ¬ k2 = k) : find (dappend l k b) k2 = find l k2 := by
  have h2 : ¬ k = k2 := fun hh => h hh.symm
  induction l with
  | nil => simp [dappend, find, h2]
  | cons e r ih =>
    by_cases he : e.1 = k
    · have he2 : ¬ e.1 = k2 := by rw [he]; exact h2
      simp [dappend, he, find, he2, h2]
    · by_cases he2 : e.1 = k2
      · simp [dappend, he, find, he2, h]
      · simp [dappend, he, find, he2, h, ih]

theorem mem_keys_dappend {κ β : Type} [DecidableEq κ] (l : List (κ × List β)) (k k2 : κ) (b : β) :
    k2 ∈ keys (dappend l k b) → k2 ∈ keys l ∨ k2 = k := by
  induction l with
  | nil =>
    intro h
    simp only [dappend, keys, List.map_cons, List.map_nil, List.mem_singleton] at h
    exact Or.inr h
  | cons e r ih =>
    intro h
    by_cases he : e.1 = k
    · simp only [dappend, if_pos he, keys, List.map_cons, List.mem_cons] at h
      rcases h with h | h
      · simp only [keys, List.map_cons, List.mem_cons]
        exact Or.inl (Or.inl h)
      · simp only [keys, List.map_cons, List.mem_cons]
        exact Or.inl (Or.inr (by simpa [keys] using h))
    · simp only [dappend, if_neg he, keys, List.map_cons, List.mem_cons] at h
      rcases h with h | h
      · simp only [keys, List.map_cons, List.mem_cons]
        exact Or.inl (Or.inl h)
      · rcases ih (by simpa [keys] using h) with h1 | h1
        · simp only [keys, List.map_cons, List.mem_cons]
          exact Or.inl (Or.inr (by simpa [keys] using h1))
        · exact Or.inr h1

end Assoc

namespace Flat

theorem empty_scan_snd_getD (pool : List Machine) (st : Store) (k : String) :
    Assoc.getD (empty_scan st pool).2 k [] = Assoc.getD st k [] := by
  induction pool generalizing st with
  | nil => rfl
  | cons m rest ih =>
    simp only [empty_scan]
    rw [ih]
    exact Assoc.getD_dget_snd st m.instance_id k []

theorem empty_scan_fst (pool : List Machine) (st : Store) :
    (empty_scan st pool).1 =
      pool.filter (fun m => decide ((Assoc.getD st m.instance_id []).length = 0)) := by
  induction pool generalizing st with
  | nil => rfl
  | cons m rest ih =>
    simp only [empty_scan, List.filter_cons]
    rw [ih, Assoc.dget_fst]
    have hfilter : rest.filter
        (fun m2 => decide ((Assoc.getD (Assoc.dget st m.instance_id []).2 m2.instance_id []).length = 0)) =
        rest.filter (fun m2 => decide ((Assoc.getD st m2.instance_id []).length = 0)) := by
      apply List.filter_congr
      intro m2 _
      rw [Assoc.getD_dget_snd]
    rw [hfilter]
    by_cases hz : (Assoc.getD st m.instance_id []).length = 0
    · simp [hz]
    · simp [hz]

theorem keys_empty_scan_mono (pool : List Machine) (st : Store) (k : String)
    (h : k ∈ Assoc.keys st) : k ∈ Assoc.keys (empty_scan st pool).2 := by
  induction pool generalizing st with
  | nil => exact h
  | cons m rest ih =>
    simp only [empty_scan]
    exact ih _ (Assoc.mem_keys_dget_mono st m.instance_id k [] h)

theorem mem_keys_empty_scan (pool : List Machine) (st : Store) (m2 : Machine)
    (h : m2 ∈ pool) : m2.instance_id ∈ Assoc.keys (empty_scan st pool).2 := by
  induction pool generalizing st with
  | nil => cases h
  | cons m rest ih =>
    simp only [empty_scan]
    rcases List.mem_cons.mp h with h1 | h1
    · subst h1
      exact keys_empty_scan_mono rest _ _ (Assoc.mem_keys_dget_self st m2.instance_id [])
    · exact ih (Assoc.dget st m.instance_id []).2 h1

end Flat

/-- C10: querying the store is not read-only.  Reading a missing machine's
assignment list through `assignments_for_machine` hands back the empty list
AND inserts a persistent empty-list entry keyed by the machine's instance id
(the store's key sequence grows by exactly that key), and the empty-machine
scan of `autoplace_unplaced_services` leaves every probed pool machine's
instance id present in the stored mapping. -/
theorem c10_read_probe_grows_store (st : Flat.Store) (pool : List Machine) (m : Machine)
    (h : Assoc.find st m.instance_id = none) :
    (Flat.assignments_for_machine st m).1 = []
    ∧ Assoc.keys (Flat.assignments_for_machine st m).2 = Assoc.keys st ++ [m.instance_id]
    ∧ ∀ m2 ∈ pool, m2.instance_id ∈ Assoc.keys (Flat.empty_scan st pool).2 := by
  refine ⟨?_, ?_, ?_⟩
  · rw [Flat.assignments_for_machine, Assoc.dget_fst, Assoc.getD, h]
    rfl
  · exact Assoc.keys_dget_snd_of_none st m.instance_id [] h
  · intro m2 hm2
    exact Flat.mem_keys_empty_scan pool st m2 hm2

/-- C10 witness: on the empty store, reading machine A's assignments inserts
the key "machine-a", and scanning the pool [A, B] leaves both keys stored. -/
theorem c10_witness :
    (Flat.assignments_for_machine ([] : Flat.Store) mA).1 = []
    ∧ Assoc.keys (Flat.assignments_for_machine ([] : Flat.Store) mA).2 =
        Assoc.keys ([] : Flat.Store) ++ [mA.instance_id]
    ∧ ∀ m2 ∈ [mA, mB], m2.instance_id ∈ Assoc.keys (Flat.empty_scan [] [mA, mB]).2 :=
  c10_read_probe_grows_store [] [mA, mB] mA (by decide)

/-- C9 counterexample: assigning a service that no catalog registers does NOT
fail — `assign` consults no catalog at all.  On the empty store, assigning
the unregistered `bogusC` silently succeeds and mutates the store (and, the
return type of the embedded `assign` being `Store` rather than `Except`,
placement.py lines 106-112 have no failure path whatsoever), contradicting
the claim that such an assignment fails with a "not found" condition rather
than silently succeeding. -/
theorem c9_unregistered_assign_counterexample :
    (bogusC ∈ sampleCatalog → False)
    ∧ Flat.assign [] mA bogusC = [("machine-a", [bogusC])]
    ∧ Flat.assign [] mA bogusC ≠ [] := by
  refine ⟨by decide, by decide, by decide⟩

/-- C9 amended: only one of the two referential errors fails loudly.
Removing an assignment that is not present raises (placement.py lines
124-127: `list.remove` raises ValueError), while `assign` performs no catalog
check at all: it is total and unconditionally records the given charm —
registered or not — under the target machine. -/
theorem c9_amended_referential_errors (st st2 : Flat.Store) (m m2 : Machine) (cc cc2 : Charm)
    (h : (Assoc.getD st m.instance_id []).any (fun x => x = cc) = false) :
    Flat.remove_assignment st m cc = Except.error Flat.value_error_message
    ∧ (Assoc.getD (Flat.assign st2 m2 cc2) m2.instance_id []).any (fun x => x = cc2) = true := by
  constructor
  · simp only [Flat.remove_assignment, Assoc.dget_fst]
    rw [h]
    simp
  · rw [Flat.assign]
    have hd := Assoc.find_dappend_self
      (if cc2.allow_multi_units then st2
       else st2.map (fun e =>
         (e.1, if e.2.any (fun x => x = cc2) then Flat.eraseFirst e.2 cc2 else e.2)))
      m2.instance_id cc2
    rw [Assoc.getD, hd]
    simp

/-- C9 amended witness: removing keystone from a machine with no keystone
assignment errors out, and assigning the unregistered bogus charm lands it in
the store. -/
theorem c9_amended_witness :
    Flat.remove_assignment [] mA keystoneC = Except.error Flat.value_error_message
    ∧ (Assoc.getD (Flat.assign [] mA bogusC) mA.instance_id []).any (fun x => x = bogusC) = true :=
  c9_amended_referential_errors [] [] mA mA keystoneC bogusC (by decide)

/-- C7: for every store and machine — including one with no entry at all —
the inner mapping handed back by `assignments_for_machine` answers every
stratum query: its fully populated view lists exactly the three strata
BareMetal, LXC, KVM in declaration order, and for an unassigned machine each
of the three defaults to the empty list.  `innerGet` is total, so no query
can raise a missing-key error. -/
theorem c7_assignments_for_machine_total (a : Strata.AMap) (m : Machine) :
    (Strata.fullStrata (Strata.assignments_for_machine a m)).map Prod.fst = AssignmentType.all
    ∧ (Assoc.find a m.instance_id = none →
        ∀ t, Strata.innerGet (Strata.assignments_for_machine a m) t = []) := by
  constructor
  · rfl
  · intro h t
    rw [Strata.assignments_for_machine, Assoc.getD, h]
    rfl

/-- C7 witness: the empty store queried for machine A yields the three-strata
view with empty defaults; the KVM query returns the empty list. -/
theorem c7_witness :
    (Strata.fullStrata (Strata.assignments_for_machine [] mA)).map Prod.fst = AssignmentType.all
    ∧ Strata.innerGet (Strata.assignments_for_machine [] mA) AssignmentType.KVM = [] :=
  ⟨(c7_assignments_for_machine_total [] mA).1,
   (c7_assignments_for_machine_total [] mA).2 (by decide) AssignmentType.KVM⟩

/-- C5: the core classification.  Every service outside the exclusion list is
core; the swift object-storage pair is never core; and the compute service is
core exactly while the one-way flag is unset: true before any placement,
false right after `assign` places it anywhere, and — the documented
asymmetry — still false after `clear_assignments` drops that very placement
(the flag is never re-evaluated). -/
theorem c5_compute_core_one_way (pc : Strata.PC) (m : Machine) (t : AssignmentType) (cc : Charm)
    (h0 : pc.compute_placed = false)
    (hcc : ¬ cc.charm_name ∈ ["swift-storage", "swift-proxy", "nova-compute"]) :
    Strata.service_is_core pc novaC = true
    ∧ Strata.service_is_core (Strata.assign pc m novaC t) novaC = false
    ∧ Strata.service_is_core (Strata.clear_assignments (Strata.assign pc m novaC t) m) novaC = false
    ∧ Strata.service_is_core pc swiftStorageC = false
    ∧ Strata.service_is_core pc swiftProxyC = false
    ∧ Strata.service_is_core pc cc = true := by
  simp only [List.mem_cons, List.mem_singleton, not_or] at hcc
  obtain ⟨hs1, hs2, hs3⟩ := hcc
  refine ⟨?_, ?_, ?_, ?_, ?_, ?_⟩
  · simp [Strata.service_is_core, Strata.uncore_names, novaC, h0]
  · simp [Strata.service_is_core, Strata.uncore_names, Strata.assign, novaC]
  · simp [Strata.service_is_core, Strata.uncore_names, Strata.assign,
      Strata.clear_assignments, novaC]
  · simp [Strata.service_is_core, Strata.uncore_names, swiftStorageC]
  · simp [Strata.service_is_core, Strata.uncore_names, swiftProxyC]
  · have g1 : ¬ ("swift-storage" : String) = cc.charm_name := fun hh => hs1 hh.symm
    have g2 : ¬ ("swift-proxy" : String) = cc.charm_name := fun hh => hs2 hh.symm
    simp [Strata.service_is_core, Strata.uncore_names, g1, g2, hs3]

/-- C5 witness: a fresh controller has compute core; after placing compute on
machine A under LXC it stops being core, and clearing machine A does not make
it core again; keystone is core throughout and the swift pair never is. -/
theorem c5_witness :
    Strata.service_is_core (Strata.initial [mA]) novaC = true
    ∧ Strata.service_is_core (Strata.assign (Strata.initial [mA]) mA novaC AssignmentType.LXC)
        novaC = false
    ∧ Strata.service_is_core
        (Strata.clear_assignments
          (Strata.assign (Strata.initial [mA]) mA novaC AssignmentType.LXC) mA) novaC = false
    ∧ Strata.service_is_core (Strata.initial [mA]) swiftStorageC = false
    ∧ Strata.service_is_core (Strata.initial [mA]) swiftProxyC = false
    ∧ Strata.service_is_core (Strata.initial [mA]) keystoneC = true :=
  c5_compute_core_one_way (Strata.initial [mA]) mA AssignmentType.LXC keystoneC rfl (by decide)

/-- C6 counterexample: `are_assignments_equivalent` is NOT the symmetric
relation the claim describes.  With A the empty mapping and B the mapping
placing keystone on machine B under LXC, the code answers true for (A, B) —
its loop ranges over A's entries only, so B's extra machine is never
examined — but false for (B, A).  The claim's condition ("for every machine
key present in either mapping the pair sets agree") is symmetric in the two
mappings and fails here for machine B, so the claimed iff (and with it the
claimed symmetry) is refuted at this concrete input. -/
theorem c6_equivalence_asymmetry_counterexample :
    Strata.are_assignments_equivalent []
      [("machine-b", [(AssignmentType.LXC, [keystoneC])])] = true
    ∧ Strata.are_assignments_equivalent
      [("machine-b", [(AssignmentType.LXC, [keystoneC])])] [] = false := by
  constructor
  · decide
  · decide

/-- C6 amended: the equivalence check is one-sided.  It returns true iff
every machine entry of the receiver finds an entry for the same key in the
other mapping (the first such entry) whose order-independent (stratum,
service) pair set agrees; machine keys present only in the other mapping are
ignored, so the relation is not symmetric, and a receiver machine with zero
assignments but no key in the other mapping counts as a mismatch. -/
theorem c6_amended_one_sided_equivalence (a b : Strata.AMap) :
    Strata.are_assignments_equivalent a b = true ↔
      ∀ e ∈ a, ∃ e2, b.find? (fun e3 => e3.1 = e.1) = some e2
        ∧ Strata.pairSetEq (Strata.innerPairs e.2) (Strata.innerPairs e2.2) = true := by
  rw [Strata.are_assignments_equivalent, List.all_eq_true]
  constructor
  · intro h e he
    have h1 := h e he
    cases hf : b.find? (fun e3 => e3.1 = e.1) with
    | none => rw [hf] at h1; cases h1
    | some e2 =>
      rw [hf] at h1
      exact ⟨e2, rfl, h1⟩
  · intro h e he
    obtain ⟨e2, hf, hp⟩ := h e he
    rw [hf]
    exact hp

/-- C6 amended witness: applied to the singleton mapping against itself the
characterization confirms the code's true verdict. -/
theorem c6_amended_witness :
    Strata.are_assignments_equivalent
      [("machine-b", [(AssignmentType.LXC, [keystoneC])])]
      [("machine-b", [(AssignmentType.LXC, [keystoneC])])] = true :=
  (c6_amended_one_sided_equivalence _ _).mpr (by
    intro e he
    rw [List.mem_singleton] at he
    subst he
    exact ⟨("machine-b", [(AssignmentType.LXC, [keystoneC])]), by decide, by decide⟩)

namespace Strata

theorem filter_ne_filter_eq_nil (l : List Charm) (cc : Charm) :
    (l.filter (fun x => ! decide (x = cc))).filter (fun x => decide (x = cc)) = [] := by
  induction l with
  | nil => rfl
  | cons x r ih =>
    by_cases hx : x = cc
    · simp [List.filter_cons, hx, ih]
    · simp [List.filter_cons, hx, ih]

theorem innerOccs_purged (d : Inner) (cc : Charm) :
    innerOccs (d.map (fun te => (te.1, te.2.filter (fun x => ! decide (x = cc))))) cc = [] := by
  induction d with
  | nil => rfl
  | cons te r ih =>
    simp only [List.map_cons, innerOccs, List.flatMap_cons] at ih ⊢
    rw [filter_ne_filter_eq_nil te.2 cc]
    simpa using ih

theorem charmOccs_purge (a : AMap) (cc : Charm) :
    charmOccs (purge a cc) cc = [] := by
  induction a with
  | nil => rfl
  | cons e r ih =>
    simp only [purge, List.map_cons, charmOccs, List.flatMap_cons] at ih ⊢
    rw [innerOccs_purged e.2 cc]
    simpa using ih

theorem innerOccs_dappend_of_nil (d : Inner) (t : AssignmentType) (cc : Charm)
    (h : innerOccs d cc = []) : innerOccs (Assoc.dappend d t cc) cc = [t] := by
  induction d with
  | nil => simp [Assoc.dappend, innerOccs]
  | cons te r ih =>
    simp only [innerOccs, List.flatMap_cons, List.append_eq_nil] at h
    obtain ⟨h1, h2⟩ := h
    rw [List.map_eq_nil_iff] at h1
    by_cases he : te.1 = t
    · simp only [Assoc.dappend, if_pos he, innerOccs, List.flatMap_cons]
      rw [List.filter_append, h1]
      simp only [List.nil_append]
      have : List.filter (fun x => decide (x = cc)) [cc] = [cc] := by simp
      rw [this]
      simp only [List.map_cons, List.map_nil, List.cons_append, List.nil_append]
      rw [he]
      have : innerOccs r cc = [] := h2
      simp only [innerOccs] at this
      rw [this]
    · simp only [Assoc.dappend, if_neg he, innerOccs, List.flatMap_cons]
      rw [h1]
      simp only [List.map_nil, List.nil_append]
      exact ih h2

theorem charmOccs_mapAppend_of_nil (a : AMap) (mid : String) (t : AssignmentType) (cc : Charm)
    (h : charmOccs a cc = []) : charmOccs (mapAppend a mid t cc) cc = [(mid, t)] := by
  induction a with
  | nil =>
    simp [mapAppend, charmOccs, innerOccs]
  | cons e r ih =>
    simp only [charmOccs, List.flatMap_cons, List.append_eq_nil] at h
    obtain ⟨h1, h2⟩ := h
    rw [List.map_eq_nil_iff] at h1
    by_cases he : e.1 = mid
    · simp only [mapAppend, if_pos he, charmOccs, List.flatMap_cons]
      rw [innerOccs_dappend_of_nil e.2 t cc h1]
      have : charmOccs r cc = [] := h2
      simp only [charmOccs] at this
      rw [this]
      simp [he]
    · simp only [mapAppend, if_neg he, charmOccs, List.flatMap_cons]
      rw [h1]
      simp only [List.map_nil, List.nil_append]
      exact ih h2

end Strata

/-- C1: the single-placement invariant for services that disallow multiple
units.  Starting from ANY controller state — in particular after arbitrary
prior assignments of the service anywhere — `assign m2 cc t2` first purges
every occurrence of `cc` from every machine and stratum and then appends the
single new occurrence, so `machines_for_charm` reports exactly one (stratum,
machine) pair: the new one.  The hypothesis pins the pool lookup of m2's
instance id to m2 itself (m2 is a pool machine and ids are unambiguous). -/
theorem c1_nonmulti_single_placement (pc : Strata.PC) (m2 : Machine) (cc : Charm)
    (t2 : AssignmentType)
    (h1 : cc.allow_multi_units = false)
    (h2 : pc.pool.find? (fun m => m.instance_id = m2.instance_id) = some m2) :
    Strata.machines_for_charm pc.pool (Strata.assign pc m2 cc t2).assignments cc
      = [(t2, m2)] := by
  have key : Strata.charmOccs (Strata.assign pc m2 cc t2).assignments cc
      = [(m2.instance_id, t2)] := by
    simp only [Strata.assign, h1, Bool.false_eq_true, if_neg, ite_false]
    exact Strata.charmOccs_mapAppend_of_nil _ _ _ _ (Strata.charmOccs_purge pc.assignments cc)
  rw [Strata.machines_for_charm, key]
  simp [h2]

/-- C1 witness: keystone (a non-multi service) previously placed on machine B
under BareMetal; assigning it to machine A under LXC leaves exactly the pair
(LXC, machine A). -/
theorem c1_witness :
    Strata.machines_for_charm [mA, mB]
      (Strata.assign
        { pool := [mA, mB],
          assignments := [("machine-b", [(AssignmentType.BareMetal, [keystoneC])])],
          compute_placed := false } mA keystoneC AssignmentType.LXC).assignments
      keystoneC = [(AssignmentType.LXC, mA)] :=
  c1_nonmulti_single_placement
    { pool := [mA, mB],
      assignments := [("machine-b", [(AssignmentType.BareMetal, [keystoneC])])],
      compute_placed := false } mA keystoneC AssignmentType.LXC rfl (by decide)

namespace Flat

theorem satisfying_machine_sublist (p : List Machine) (cs : Constraints) :
    (satisfying_machine p cs).2.Sublist p := by
  induction p with
  | nil => simp [satisfying_machine]
  | cons m rest ih =>
    by_cases hm : (satisfies m cs).1 = true
    · simp only [satisfying_machine, if_pos hm]
      exact List.sublist_cons_self m rest
    · simp only [satisfying_machine, if_neg hm]
      exact List.Sublist.cons₂ m ih

theorem satisfying_machine_none (p : List Machine) (cs : Constraints)
    (h : (satisfying_machine p cs).1 = none) : (satisfying_machine p cs).2 = p := by
  induction p with
  | nil => rfl
  | cons m rest ih =>
    by_cases hm : (satisfies m cs).1 = true
    · simp [satisfying_machine, if_pos hm] at h
    · simp only [satisfying_machine, if_neg hm] at h ⊢
      rw [ih h]

theorem satisfying_machine_some_length (p : List Machine) (cs : Constraints) (m : Machine)
    (h : (satisfying_machine p cs).1 = some m) :
    (satisfying_machine p cs).2.length + 1 = p.length := by
  induction p with
  | nil => simp [satisfying_machine] at h
  | cons m2 rest ih =>
    by_cases hm : (satisfies m2 cs).1 = true
    · simp [satisfying_machine, if_pos hm]
    · simp only [satisfying_machine, if_neg hm] at h ⊢
      simp only [List.length_cons]
      rw [← ih h]

theorem placeIsolated_pool_sublist (iso : List Charm) (acc : Store) (pool : List Machine) :
    (placeIsolated iso acc pool).2.Sublist pool := by
  induction iso generalizing acc pool with
  | nil => simp [placeIsolated]
  | cons cc rest ih =>
    simp only [placeIsolated]
    cases hs : satisfying_machine pool cc.constraints with
    | mk om pool' =>
      cases om with
      | some m =>
        have h1 : pool'.Sublist pool := by
          have := satisfying_machine_sublist pool cc.constraints
          rw [hs] at this
          exact this
        exact List.Sublist.trans (ih _ _) h1
      | none =>
        have h1 : pool'.Sublist pool := by
          have := satisfying_machine_sublist pool cc.constraints
          rw [hs] at this
          exact this
        exact List.Sublist.trans (ih _ _) h1

theorem placeIsolated_cases (iso : List Charm) (acc : Store) (pool : List Machine) :
    placeIsolated iso acc pool = (acc, pool)
    ∨ (placeIsolated iso acc pool).2.length < pool.length := by
  induction iso generalizing acc pool with
  | nil => exact Or.inl rfl
  | cons cc rest ih =>
    simp only [placeIsolated]
    cases hs : satisfying_machine pool cc.constraints with
    | mk om pool' =>
      cases om with
      | some m =>
        right
        have hlen : pool'.length + 1 = pool.length := by
          have := satisfying_machine_some_length pool cc.constraints m
          rw [hs] at this
          exact this rfl
        have hsub : (placeIsolated rest (Assoc.dappend acc m.instance_id cc) pool').2.length ≤ pool'.length :=
          List.Sublist.length_le (placeIsolated_pool_sublist rest _ pool')
        show (placeIsolated rest (Assoc.dappend acc m.instance_id cc) pool').2.length < pool.length
        omega
      | none =>
        have hp : pool' = pool := by
          have := satisfying_machine_none pool cc.constraints
          rw [hs] at this
          exact this rfl
        show placeIsolated rest acc pool' = (acc, pool) ∨
          (placeIsolated rest acc pool').2.length < pool.length
        rw [hp]
        exact ih acc pool

end Flat

/-- C3 counterexample: `gen_defaults` is NOT free of externally observable
effects on the supplied machine pool.  The embedded function returns, as its
second component, the pool list exactly as the Python call leaves the
caller's list object (machines are removed from it in place, placement.py
line 210).  With the one-service catalog [keystone] and the pool [machine A],
the call consumes machine A as the controller machine and the caller's pool
is left empty — not the original one-element sequence the claim demands. -/
theorem c3_pool_mutation_counterexample :
    (Flat.gen_defaults [keystoneC] [mA]).2 ≠ [mA]
    ∧ (Flat.gen_defaults [keystoneC] [mA]).2 = [] := by
  constructor
  · decide
  · decide

/-- C3 amended: `gen_defaults` is deterministic — its result is a function of
the catalog and pool values alone — but it mutates the supplied pool: after
the call the caller's list is a sublist of the original (consumed machines
removed in place, order of the rest preserved), and it is strictly shorter
whenever the call produced any assignment at all. -/
theorem c3_amended_pool_mutation (catalog : List Charm) (pool : List Machine) :
    (Flat.gen_defaults catalog pool).2.Sublist pool
    ∧ ((Flat.gen_defaults catalog pool).1 ≠ [] →
        (Flat.gen_defaults catalog pool).2.length < pool.length) := by
  constructor
  · simp only [Flat.gen_defaults]
    cases hs : Flat.satisfying_machine
        (Flat.placeIsolated (catalog.filter (fun c => c.isolate)) [] pool).2 [] with
    | mk om pool2 =>
      have h1 : pool2.Sublist (Flat.placeIsolated (catalog.filter (fun c => c.isolate)) [] pool).2 := by
        have := Flat.satisfying_machine_sublist
          (Flat.placeIsolated (catalog.filter (fun c => c.isolate)) [] pool).2 []
        rw [hs] at this
        exact this
      have h2 := Flat.placeIsolated_pool_sublist (catalog.filter (fun c => c.isolate)) [] pool
      cases om with
      | some cm => exact List.Sublist.trans h1 h2
      | none => exact List.Sublist.trans h1 h2
  · intro hne
    simp only [Flat.gen_defaults] at hne ⊢
    cases hs : Flat.satisfying_machine
        (Flat.placeIsolated (catalog.filter (fun c => c.isolate)) [] pool).2 [] with
    | mk om pool2 =>
      have h2 := Flat.placeIsolated_pool_sublist (catalog.filter (fun c => c.isolate)) [] pool
      cases om with
      | some cm =>
        have hlen : pool2.length + 1 =
            (Flat.placeIsolated (catalog.filter (fun c => c.isolate)) [] pool).2.length := by
          have := Flat.satisfying_machine_some_length
            (Flat.placeIsolated (catalog.filter (fun c => c.isolate)) [] pool).2 [] cm
          rw [hs] at this
          exact this rfl
        have hle := List.Sublist.length_le h2
        simp only [hs]
        omega
      | none =>
        rw [hs] at hne
        simp only at hne
        rcases Flat.placeIsolated_cases (catalog.filter (fun c => c.isolate)) [] pool with hcase | hcase
        · rw [hcase] at hne
          simp at hne
        · have hp : pool2 = (Flat.placeIsolated (catalog.filter (fun c => c.isolate)) [] pool).2 := by
            have := Flat.satisfying_machine_none
              (Flat.placeIsolated (catalog.filter (fun c => c.isolate)) [] pool).2 []
            rw [hs] at this
            exact this rfl
          simp only [hs]
          rw [hp]
          exact hcase

/-- C3 amended witness: with catalog [keystone] and pool [machine A] the call
assigns keystone, and the pool shrinks from one machine to zero. -/
theorem c3_amended_witness :
    (Flat.gen_defaults [keystoneC] [mA]).2.Sublist [mA]
    ∧ (Flat.gen_defaults [keystoneC] [mA]).2.length < 1 :=
  ⟨(c3_amended_pool_mutation [keystoneC] [mA]).1,
   (c3_amended_pool_mutation [keystoneC] [mA]).2 (by decide)⟩

namespace Flat

theorem find_foldl_set_not_mem (defs : Store) (s0 : Store) (mid : String)
    (h : ∀ e ∈ defs, ¬ e.1 = mid) :
    Assoc.find (defs.foldl (fun s e => Assoc.set s e.1 e.2) s0) mid = Assoc.find s0 mid := by
  induction defs generalizing s0 with
  | nil => rfl
  | cons e r ih =>
    simp only [List.foldl_cons]
    rw [ih _ (fun e2 he2 => h e2 (List.mem_cons_of_mem e he2))]
    exact Assoc.find_set_ne s0 e.1 mid e.2 (fun hh => h e (List.mem_cons_self e r) hh.symm)

theorem satisfying_machine_some_mem (p : List Machine) (cs : Constraints) (m : Machine)
    (h : (satisfying_machine p cs).1 = some m) : m ∈ p := by
  induction p with
  | nil => simp [satisfying_machine] at h
  | cons m2 rest ih =>
    by_cases hm : (satisfies m2 cs).1 = true
    · simp only [satisfying_machine, if_pos hm, Option.some.injEq] at h
      subst h
      exact List.mem_cons_self _ _
    · simp only [satisfying_machine, if_neg hm] at h
      exact List.mem_cons_of_mem m2 (ih h)

theorem fold_dappend_keys (charms : List Charm) (s0 : Store) (cid : String) (k : String)
    (h : k ∈ Assoc.keys (charms.foldl (fun s cc => Assoc.dappend s cid cc) s0)) :
    k ∈ Assoc.keys s0 ∨ k = cid := by
  induction charms generalizing s0 with
  | nil => exact Or.inl h
  | cons cc rest ih =>
    simp only [List.foldl_cons] at h
    rcases ih _ h with h1 | h1
    · exact Assoc.mem_keys_dappend s0 cid k cc h1
    · exact Or.inr h1

theorem placeIsolated_keys (iso : List Charm) (acc : Store) (pool : List Machine) (k : String)
    (h : k ∈ Assoc.keys (placeIsolated iso acc pool).1) :
    k ∈ Assoc.keys acc ∨ ∃ m, m ∈ pool ∧ m.instance_id = k := by
  induction iso generalizing acc pool with
  | nil => exact Or.inl h
  | cons cc rest ih =>
    simp only [placeIsolated] at h
    cases hs : satisfying_machine pool cc.constraints with
    | mk om pool' =>
      rw [hs] at h
      have hsub : pool'.Sublist pool := by
        have := satisfying_machine_sublist pool cc.constraints
        rw [hs] at this
        exact this
      cases om with
      | some m =>
        rcases ih _ _ h with h1 | h1
        · rcases Assoc.mem_keys_dappend acc m.instance_id k cc h1 with h2 | h2
          · exact Or.inl h2
          · refine Or.inr ⟨m, ?_, h2.symm⟩
            have hmem : m ∈ pool := by
              have := satisfying_machine_some_mem pool cc.constraints m
              rw [hs] at this
              exact this rfl
            exact hmem
        · rcases h1 with ⟨m2, hm2, hid⟩
          exact Or.inr ⟨m2, hsub.subset hm2, hid⟩
      | none =>
        rcases ih _ _ h with h1 | h1
        · exact Or.inl h1
        · rcases h1 with ⟨m2, hm2, hid⟩
          exact Or.inr ⟨m2, hsub.subset hm2, hid⟩

theorem gen_defaults_keys (c : List Charm) (p : List Machine) (k : String)
    (h : k ∈ Assoc.keys (gen_defaults c p).1) : ∃ m, m ∈ p ∧ m.instance_id = k := by
  simp only [gen_defaults] at h
  cases hs : satisfying_machine (placeIsolated (c.filter (fun c2 => c2.isolate)) [] p).2 [] with
  | mk om pool2 =>
    rw [hs] at h
    have hsub : (placeIsolated (c.filter (fun c2 => c2.isolate)) [] p).2.Sublist p :=
      placeIsolated_pool_sublist _ [] p
    cases om with
    | some cm =>
      rcases fold_dappend_keys _ _ _ _ h with h1 | h1
      · rcases placeIsolated_keys _ [] p k h1 with h2 | h2
        · cases h2
        · exact h2
      · have hcm : cm ∈ (placeIsolated (c.filter (fun c2 => c2.isolate)) [] p).2 := by
          have := satisfying_machine_some_mem
            (placeIsolated (c.filter (fun c2 => c2.isolate)) [] p).2 [] cm
          rw [hs] at this
          exact this rfl
        exact ⟨cm, hsub.subset hcm, h1.symm⟩
    | none =>
      rcases placeIsolated_keys _ [] p k h with h2 | h2
      · cases h2
      · exact h2

theorem autoplace_split (pool : List Machine) (catalog : List Charm) (st : Store) :
    autoplace_unplaced_services pool catalog st =
      (if 0 < (unplaced pool catalog
          (((gen_defaults (unplaced pool catalog st) (empty_scan st pool).1).1).foldl
            (fun s e => Assoc.set s e.1 e.2) (empty_scan st pool).2)).length
        then (false, autoplace_message) else (true, ""),
       ((gen_defaults (unplaced pool catalog st) (empty_scan st pool).1).1).foldl
         (fun s e => Assoc.set s e.1 e.2) (empty_scan st pool).2) := by
  simp only [autoplace_unplaced_services]
  split <;> simp_all

end Flat

/-- C4: the autoplace contract.  The candidate pool is exactly the machines
with zero existing assignments of any kind (first conjunct, the restriction
the empty-machine scan computes); the merge of the generated defaults into
the live store never removes an existing assignment (per-machine occurrence
counts never drop); any machine whose stored list changes at all had zero
assignments before the call; the call is total (no failure path exists in
the embedding), and it returns (false, the fixed diagnostic message) exactly
when services remain unplaced after the merge, and (true, "") exactly when
none do. -/
theorem c4_autoplace_contract (pool : List Machine) (catalog : List Charm) (st : Flat.Store) :
    (Flat.empty_scan st pool).1 =
      pool.filter (fun m => decide ((Assoc.getD st m.instance_id []).length = 0))
    ∧ (∀ mid cc, (Assoc.getD st mid []).countP (fun x => decide (x = cc)) ≤
        (Assoc.getD (Flat.autoplace_unplaced_services pool catalog st).2 mid []).countP
          (fun x => decide (x = cc)))
    ∧ (∀ mid, ¬ Assoc.getD (Flat.autoplace_unplaced_services pool catalog st).2 mid []
          = Assoc.getD st mid [] → Assoc.getD st mid [] = [])
    ∧ ((Flat.autoplace_unplaced_services pool catalog st).1 = (false, Flat.autoplace_message) ↔
        ¬ Flat.unplaced pool catalog (Flat.autoplace_unplaced_services pool catalog st).2 = [])
    ∧ ((Flat.autoplace_unplaced_services pool catalog st).1 = (true, "") ↔
        Flat.unplaced pool catalog (Flat.autoplace_unplaced_services pool catalog st).2 = []) := by
  have hval : ∀ mid, (∀ e ∈ (Flat.gen_defaults (Flat.unplaced pool catalog st)
        (Flat.empty_scan st pool).1).1, ¬ e.1 = mid) →
      Assoc.getD (((Flat.gen_defaults (Flat.unplaced pool catalog st)
          (Flat.empty_scan st pool).1).1).foldl
        (fun s e => Assoc.set s e.1 e.2) (Flat.empty_scan st pool).2) mid []
        = Assoc.getD st mid [] := by
    intro mid hmid
    rw [Assoc.getD, Flat.find_foldl_set_not_mem _ _ mid hmid, ← Assoc.getD]
    exact Flat.empty_scan_snd_getD pool st mid
  have hkey : ∀ mid, mid ∈ Assoc.keys (Flat.gen_defaults (Flat.unplaced pool catalog st)
        (Flat.empty_scan st pool).1).1 → Assoc.getD st mid [] = [] := by
    intro mid hmid
    rcases Flat.gen_defaults_keys _ _ mid hmid with ⟨m, hm, hid⟩
    rw [Flat.empty_scan_fst pool st, List.mem_filter] at hm
    have := hm.2
    simp only [decide_eq_true_eq] at this
    rw [← hid]
    exact List.length_eq_zero.mp this
  refine ⟨Flat.empty_scan_fst pool st, ?_, ?_, ?_, ?_⟩
  · intro mid cc
    rw [Flat.autoplace_split]
    by_cases hk : ∀ e ∈ (Flat.gen_defaults (Flat.unplaced pool catalog st)
        (Flat.empty_scan st pool).1).1, ¬ e.1 = mid
    · have h1 := hval mid hk
      by_cases hcond : 0 < (Flat.unplaced pool catalog
          (((Flat.gen_defaults (Flat.unplaced pool catalog st)
            (Flat.empty_scan st pool).1).1).foldl
            (fun s e => Assoc.set s e.1 e.2) (Flat.empty_scan st pool).2)).length
      · simp only [if_pos hcond]
        rw [h1]
      · simp only [if_neg hcond]
        rw [h1]
    · push_neg at hk
      rcases hk with ⟨e, he, hid⟩
      have hmem : mid ∈ Assoc.keys (Flat.gen_defaults (Flat.unplaced pool catalog st)
          (Flat.empty_scan st pool).1).1 := by
        simp only [Assoc.keys, List.mem_map]
        exact ⟨e, he, hid⟩
      rw [hkey mid hmem]
      simp
  · intro mid hne
    rw [Flat.autoplace_split] at hne
    by_cases hk : ∀ e ∈ (Flat.gen_defaults (Flat.unplaced pool catalog st)
        (Flat.empty_scan st pool).1).1, ¬ e.1 = mid
    · exact absurd (hval mid hk) hne
    · push_neg at hk
      rcases hk with ⟨e, he, hid⟩
      apply hkey mid
      simp only [Assoc.keys, List.mem_map]
      exact ⟨e, he, hid⟩
  · rw [Flat.autoplace_split]
    by_cases hcond : 0 < (Flat.unplaced pool catalog
        (((Flat.gen_defaults (Flat.unplaced pool catalog st)
          (Flat.empty_scan st pool).1).1).foldl
          (fun s e => Assoc.set s e.1 e.2) (Flat.empty_scan st pool).2)).length
    · simp only [if_pos hcond]
      constructor
      · intro _
        exact List.ne_nil_of_length_pos hcond
      · intro _
        trivial
    · simp only [if_neg hcond]
      rw [Nat.not_lt, Nat.le_zero] at hcond
      have hnil := List.eq_nil_of_length_eq_zero hcond
      constructor
      · intro h
        cases h
      · intro h
        exact absurd hnil h
  · rw [Flat.autoplace_split]
    by_cases hcond : 0 < (Flat.unplaced pool catalog
        (((Flat.gen_defaults (Flat.unplaced pool catalog st)
          (Flat.empty_scan st pool).1).1).foldl
          (fun s e => Assoc.set s e.1 e.2) (Flat.empty_scan st pool).2)).length
    · simp only [if_pos hcond]
      constructor
      · intro h
        cases h
      · intro h
        exact absurd h (List.ne_nil_of_length_pos hcond)
    · simp only [if_neg hcond]
      rw [Nat.not_lt, Nat.le_zero] at hcond
      constructor
      · intro _
        exact List.eq_nil_of_length_eq_zero hcond
      · intro _
        trivial

/-- C4 witness: on the pool [A, B] with catalog [keystone, nova-compute] and
the empty store, autoplace restricts to both (empty) machines, places the
services, never drops an assignment, and reports success. -/
theorem c4_witness :
    (Flat.empty_scan ([] : Flat.Store) [mA, mB]).1 =
      [mA, mB].filter (fun m => decide ((Assoc.getD ([] : Flat.Store) m.instance_id []).length = 0))
    ∧ (Assoc.getD ([] : Flat.Store) "machine-a" []).countP (fun x => decide (x = keystoneC)) ≤
        (Assoc.getD (Flat.autoplace_unplaced_services [mA, mB] sampleCatalog []).2
          "machine-a" []).countP (fun x => decide (x = keystoneC))
    ∧ ((Flat.autoplace_unplaced_services [mA, mB] sampleCatalog []).1 = (true, "") ↔
        Flat.unplaced [mA, mB] sampleCatalog
          (Flat.autoplace_unplaced_services [mA, mB] sampleCatalog []).2 = []) :=
  ⟨(c4_autoplace_contract [mA, mB] sampleCatalog []).1,
   (c4_autoplace_contract [mA, mB] sampleCatalog []).2.1 "machine-a" keystoneC,
   (c4_autoplace_contract [mA, mB] sampleCatalog []).2.2.2.2⟩

namespace Flat

theorem satisfying_machine_spec (p : List Machine) (cs : Constraints) :
    satisfying_machine p cs =
      (p.find? (fun m => (satisfies m cs).1), p.eraseP (fun m => (satisfies m cs).1)) := by
  induction p with
  | nil => rfl
  | cons m rest ih =>
    by_cases hm : (satisfies m cs).1 = true
    · simp [satisfying_machine, hm, List.find?_cons_of_pos, List.eraseP_cons_of_pos]
    · simp only [satisfying_machine, if_neg hm, ih]
      rw [List.find?_cons_of_neg _ (by simpa using hm), List.eraseP_cons_of_neg (by simpa using hm)]

theorem placeIsolated_eq_spec (iso : List Charm) (acc : Store) (pool : List Machine) :
    placeIsolated iso acc pool =
      (buildIso acc (placeIsolatedSpec iso pool).1, (placeIsolatedSpec iso pool).2) := by
  induction iso generalizing acc pool with
  | nil => rfl
  | cons cc rest ih =>
    simp only [placeIsolated, placeIsolatedSpec, satisfying_machine_spec]
    cases hf : pool.find? (fun m => (satisfies m cc.constraints).1) with
    | some m =>
      simp only [buildIso]
      exact ih _ _
    | none =>
      simp only [buildIso]
      rw [List.eraseP_of_forall_not (fun m hm => by
        have := List.find?_eq_none.mp hf m hm
        simpa using this)]
      exact ih _ _

end Flat

/-- C2: the default-placement algorithm is exactly the claim's description.
`gen_defaults` produces the same mapping as the claim-worded
`genDefaultsSpecMap`: the catalog is partitioned into isolated and
non-isolated services; each isolated service, in catalog order, goes to the
first remaining pool machine satisfying its constraints (`List.find?`), that
machine being consumed (`List.eraseP`, so each machine is consumed at most
once), and it is left unplaced with no error when none satisfies; afterwards
one remaining machine matching the empty constraints is the controller
machine and every non-isolated service is assigned to it; when no machine
remains, the non-isolated services are all left unplaced. -/
theorem c2_gen_defaults_matches_claim (catalog : List Charm) (pool : List Machine) :
    (Flat.gen_defaults catalog pool).1 = Flat.genDefaultsSpecMap catalog pool := by
  simp only [Flat.gen_defaults, Flat.genDefaultsSpecMap,
    Flat.placeIsolated_eq_spec, Flat.satisfying_machine_spec]
  cases hf : (Flat.placeIsolatedSpec (catalog.filter (fun c => c.isolate)) pool).2.find?
      (fun m => (satisfies m []).1) with
  | some cm => rfl
  | none => rfl

namespace Strata

theorem nameAtype_atypeName (t : AssignmentType) : nameAtype (atypeName t) = some t := by
  cases t <;> rfl

theorem resolve_names (catalog : List Charm) (l : List Charm)
    (h : ∀ cc ∈ l, lookupCharm catalog cc.charm_name = some cc) :
    (l.map (fun c => c.charm_name)).filterMap (lookupCharm catalog) = l := by
  induction l with
  | nil => rfl
  | cons cc r ih =>
    simp only [List.map_cons, List.filterMap_cons, h cc (List.mem_cons_self cc r)]
    rw [ih (fun c2 hc2 => h c2 (List.mem_cons_of_mem cc hc2))]

theorem load_entry (catalog : List Charm) (d : Inner)
    (h : ∀ te ∈ d, ∀ cc ∈ te.2, lookupCharm catalog cc.charm_name = some cc) :
    (d.map (fun te => (atypeName te.1, te.2.map (fun c => c.charm_name)))).filterMap
      (fun p => (nameAtype p.1).map (fun t => (t, p.2.filterMap (lookupCharm catalog)))) = d := by
  induction d with
  | nil => rfl
  | cons te r ih =>
    simp only [List.map_cons, List.filterMap_cons, nameAtype_atypeName, Option.map_some]
    rw [resolve_names catalog te.2 (h te (List.mem_cons_self te r))]
    rw [ih (fun te2 hte2 => h te2 (List.mem_cons_of_mem te hte2))]
    rfl

theorem pairSetEq_refl (x : List (AssignmentType × Charm)) : pairSetEq x x = true := by
  simp only [pairSetEq, Bool.and_eq_true, List.all_eq_true]
  constructor <;>
    (intro p hp
     rw [List.any_eq_true]
     exact ⟨p, hp, by simp⟩)

theorem find?_self_of_nodup (a : AMap) (hnd : (a.map Prod.fst).Nodup) :
    ∀ e ∈ a, a.find? (fun e3 => e3.1 = e.1) = some e := by
  induction a with
  | nil => intro e he; cases he
  | cons hd tl ih =>
    intro e he
    rw [List.map_cons, List.nodup_cons] at hnd
    rcases List.mem_cons.mp he with rfl | hmem
    · rw [List.find?_cons_of_pos _ (by simp)]
    · have hne : ¬ hd.1 = e.1 := fun hh => hnd.1 (by
        rw [hh]
        exact List.mem_map.mpr ⟨e, hmem, rfl⟩)
      rw [List.find?_cons_of_neg _ (by simpa using hne)]
      exact ih hnd.2 e hmem

theorem are_assignments_equivalent_refl (a : AMap) (hnd : (a.map Prod.fst).Nodup) :
    are_assignments_equivalent a a = true := by
  rw [are_assignments_equivalent, List.all_eq_true]
  intro e he
  rw [find?_self_of_nodup a hnd e he]
  exact pairSetEq_refl _

theorem load_save_assignments (catalog : List Charm) (snap : String → Constraints)
    (l : AMap)
    (hl : ∀ e ∈ l, ∀ te ∈ e.2, ∀ cc ∈ te.2, lookupCharm catalog cc.charm_name = some cc) :
    (load (save l snap) catalog []).1 = l := by
  induction l with
  | nil => rfl
  | cons e r ih =>
    simp only [save, load, List.map_cons]
    rw [load_entry catalog e.2 (hl e (List.mem_cons_self e r))]
    have htail := ih (fun e2 he2 => hl e2 (List.mem_cons_of_mem e he2))
    simp only [save, load] at htail
    rw [htail]

theorem load_save_machines (catalog : List Charm) (snap : String → Constraints) (l : AMap) :
    (load (save l snap) catalog []).2.map (fun m => (m.instance_id, m.constraints))
      = l.map (fun e => (e.1, snap e.1)) := by
  induction l with
  | nil => rfl
  | cons e r ih =>
    simp only [save, load, List.map_cons, List.find?_nil] at ih ⊢
    rw [ih]

end Strata

/-- C8: the persistence round trip.  For a populated store whose machine keys
are unambiguous and whose stored services all resolve through the catalog by
name (which every store built from catalog charms does), loading the document
written by save — with no live pool, so every machine is reconstructed as a
placeholder — restores the assignment mapping exactly (in particular
`equivalentTo` the original holds), and the loaded machines carry exactly the
original instance ids with their saved constraint snapshots. -/
theorem c8_save_load_round_trip (a : Strata.AMap) (catalog : List Charm)
    (snap : String → Constraints)
    (hres : ∀ e ∈ a, ∀ te ∈ e.2, ∀ cc ∈ te.2,
      Strata.lookupCharm catalog cc.charm_name = some cc)
    (hnodup : (a.map Prod.fst).Nodup) :
    (Strata.load (Strata.save a snap) catalog []).1 = a
    ∧ Strata.are_assignments_equivalent (Strata.load (Strata.save a snap) catalog []).1 a = true
    ∧ (Strata.load (Strata.save a snap) catalog []).2.map
        (fun m => (m.instance_id, m.constraints)) = a.map (fun e => (e.1, snap e.1)) := by
  have h1 := Strata.load_save_assignments catalog snap a hres
  refine ⟨h1, ?_, Strata.load_save_machines catalog snap a⟩
  rw [h1]
  exact Strata.are_assignments_equivalent_refl a hnodup

/-- C8 witness: a two-machine store (keystone on B under LXC, nova-compute on
A under BareMetal and KVM) with the sample catalog and an empty constraint
snapshot round-trips exactly. -/
theorem c8_witness :
    (Strata.load (Strata.save
        [("machine-b", [(AssignmentType.LXC, [keystoneC])]),
         ("machine-a", [(AssignmentType.BareMetal, [novaC]), (AssignmentType.KVM, [novaC])])]
        (fun _ => [])) sampleCatalog []).1
      = [("machine-b", [(AssignmentType.LXC, [keystoneC])]),
         ("machine-a", [(AssignmentType.BareMetal, [novaC]), (AssignmentType.KVM, [novaC])])]
    ∧ Strata.are_assignments_equivalent
        (Strata.load (Strata.save
          [("machine-b", [(AssignmentType.LXC, [keystoneC])]),
           ("machine-a", [(AssignmentType.BareMetal, [novaC]), (AssignmentType.KVM, [novaC])])]
          (fun _ => [])) sampleCatalog []).1
        [("machine-b", [(AssignmentType.LXC, [keystoneC])]),
         ("machine-a", [(AssignmentType.BareMetal, [novaC]), (AssignmentType.KVM, [novaC])])] = true
    ∧ (Strata.load (Strata.save
        [("machine-b", [(AssignmentType.LXC, [keystoneC])]),
         ("machine-a", [(AssignmentType.BareMetal, [novaC]), (AssignmentType.KVM, [novaC])])]
        (fun _ => [])) sampleCatalog []).2.map (fun m => (m.instance_id, m.constraints))
      = [("machine-b", [(AssignmentType.LXC, [keystoneC])]),
         ("machine-a", [(AssignmentType.BareMetal, [novaC]), (AssignmentType.KVM, [novaC])])].map
          (fun e => (e.1, (fun _ => ([] : Constraints)) e.1)) :=
  c8_save_load_round_trip
    [("machine-b", [(AssignmentType.LXC, [keystoneC])]),
     ("machine-a", [(AssignmentType.BareMetal, [novaC]), (AssignmentType.KVM, [novaC])])]
    sampleCatalog (fun _ => []) (by decide) (by decide)
